import Mathlib

/-!
Verification of the pixel-art conversion core of the repository
(median-cut palette quantization, nearest-color mapping and the
supersampled box-filter downsampler), shallowly embedded from
`src/api.js` (`medianCutQuantize`, `splitBucket`, `findClosestColor`,
and the cell-averaging / rendering loops of `convertToPixel`).

Machine numbers are modelled as `Nat` (the pixel data comes from a
`Uint8ClampedArray`, so every component is in `[0,255]`); signed
intermediate quantities (channel ranges, colour distances) are `Int`.
`Math.round(a / n)` on natural operands is modelled exactly as
`(2*a + n) / (2*n)` (round half up); for the operand sizes that occur
here, IEEE double arithmetic computes the same value.
-/

namespace PinDou

/-- An RGB colour, as pushed by `medianCutQuantize` into its `colors`
list (`[pixels[i], pixels[i+1], pixels[i+2]]`). -/
structure Color where
  r : Nat
  g : Nat
  b : Nat
deriving DecidableEq, Repr

/-- A downsampled cell colour with alpha, as pushed into `pixelColors`
by `convertToPixel` (`{r, g, b, a}`). -/
structure Cell where
  r : Nat
  g : Nat
  b : Nat
  a : Nat
deriving DecidableEq, Repr

/-- `Math.round(a / n)` for natural `a`, `n`: round half up. -/
def roundDiv (a n : Nat) : Nat := (2 * a + n) / (2 * n)

/-- The colour-collection loop of `medianCutQuantize`: walk the flat
RGBA buffer in strides of 4 and keep `[r,g,b]` whenever the alpha
component exceeds 128.  A trailing partial group reads an undefined
alpha in JS, so the comparison fails and it is skipped. -/
def collectColors : List Nat → List Color
  | r :: g :: b :: a :: rest =>
    if 128 < a then ⟨r, g, b⟩ :: collectColors rest else collectColors rest
  | _ => []

/-- `c[channel]` for `channel ∈ {0,1,2}`. -/
def chVal : Nat → Color → Nat
  | 0, c => c.r
  | 1, c => c.g
  | _, c => c.b

/-- The running minimum of one channel over a bucket, seeded with 255
as in `let minR = 255, ...`. -/
def minCh (bucket : List Color) (ch : Nat) : Nat :=
  bucket.foldl (fun m c => min m (chVal ch c)) 255

/-- The running maximum of one channel over a bucket, seeded with 0
as in `let maxR = 0, ...`. -/
def maxCh (bucket : List Color) (ch : Nat) : Nat :=
  bucket.foldl (fun m c => max m (chVal ch c)) 0

/-- `rangeR = maxR - minR` etc.; JS subtraction, hence `Int`. -/
def rangeCh (bucket : List Color) (ch : Nat) : Int :=
  (maxCh bucket ch : Int) - (minCh bucket ch : Int)

/-- `channel = rangeR >= rangeG && rangeR >= rangeB ? 0 : (rangeG >= rangeB ? 1 : 2)`. -/
def selectChannel (bucket : List Color) : Nat :=
  if rangeCh bucket 0 ≥ rangeCh bucket 1 ∧ rangeCh bucket 0 ≥ rangeCh bucket 2 then 0
  else if rangeCh bucket 1 ≥ rangeCh bucket 2 then 1 else 2

/-- `bucket.sort((a, b) => a[channel] - b[channel])`: a stable
ascending sort by the selected channel (ES2019 requires `Array#sort`
to be stable). -/
def sortBucket (bucket : List Color) : List Color :=
  List.insertionSort
    (fun u v => chVal (selectChannel bucket) u ≤ chVal (selectChannel bucket) v) bucket

/-- The recursive `splitBucket(bucket, depth)` of `medianCutQuantize`:
at depth 0 or on an empty bucket return `[bucket]`, otherwise sort by
the widest channel, split at `mid = floor(length / 2)` and recurse on
both halves. -/
def splitBucket : List Color → Nat → List (List Color)
  | bucket, 0 => [bucket]
  | bucket, d + 1 =>
    if bucket.length = 0 then [bucket]
    else
      splitBucket ((sortBucket bucket).take (bucket.length / 2)) d ++
        splitBucket ((sortBucket bucket).drop (bucket.length / 2)) d

/-- The per-bucket averaging in `medianCutQuantize`: componentwise sum
then `Math.round(sum / n)`. -/
def bucketMean (bucket : List Color) : Color :=
  ⟨roundDiv (bucket.foldl (fun s c => s + c.r) 0) bucket.length,
   roundDiv (bucket.foldl (fun s c => s + c.g) 0) bucket.length,
   roundDiv (bucket.foldl (fun s c => s + c.b) 0) bucket.length⟩

/-- Fuelled ceiling base-2 logarithm. -/
def clog2Aux : Nat → Nat → Nat
  | 0, _ => 0
  | fuel + 1, n => if n ≤ 1 then 0 else clog2Aux fuel ((n + 1) / 2) + 1

/-- `Math.ceil(Math.log2 n)` for `n ≥ 1`, via the recurrence
`clog2 n = clog2 (ceil (n / 2)) + 1`. -/
def ceilLog2 (n : Nat) : Nat := clog2Aux n n

/-- `medianCutQuantize(pixels, colorCount)` of `src/api.js`: `null`
when `colorCount <= 0` or no pixel passes the alpha filter; otherwise
split recursively to depth `ceil(log2 colorCount)`, keep the first
`colorCount` buckets, drop empty ones and average each. -/
def medianCutQuantize (pixels : List Nat) (colorCount : Int) : Option (List Color) :=
  if colorCount ≤ 0 then none
  else
    let colors := collectColors pixels
    if colors.length = 0 then none
    else
      let depth := ceilLog2 colorCount.toNat
      let buckets := (splitBucket colors depth).take colorCount.toNat
      some ((buckets.filter (fun b => decide (0 < b.length))).map bucketMean)

/-- `dr*dr + dg*dg + db*db` for `findClosestColor`. -/
def distSq (r g b : Nat) (c : Color) : Int :=
  ((r : Int) - (c.r : Int)) * ((r : Int) - (c.r : Int)) +
    ((g : Int) - (c.g : Int)) * ((g : Int) - (c.g : Int)) +
    ((b : Int) - (c.b : Int)) * ((b : Int) - (c.b : Int))

/-- One iteration of the `findClosestColor` loop; `none` in the first
component stands for the initial `minDist = Infinity`. -/
def closestStep (r g b : Nat) (acc : Option Int × Color) (c : Color) : Option Int × Color :=
  match acc.1 with
  | none => (some (distSq r g b c), c)
  | some m => if distSq r g b c < m then (some (distSq r g b c), c) else acc

/-- `findClosestColor(r, g, b, palette)`: start from `palette[0]` with
an infinite running minimum and replace only on strictly smaller
squared distance.  On an empty palette JS yields `undefined`, modelled
as `none`. -/
def findClosestColor (r g b : Nat) (palette : List Color) : Option Color :=
  match palette with
  | [] => none
  | p0 :: _ => some ((palette.foldl (closestStep r g b) (none, p0)).2)

/-- The flat sample indices (already scaled by 4) visited by the
`sy`/`sx` loops of `convertToPixel` for target cell `(x, y)`. -/
def blockIdxs (sampleW S x y : Nat) : List Nat :=
  (List.range S).flatMap
    (fun j => (List.range S).map (fun i => ((y * S + j) * sampleW + (x * S + i)) * 4))

/-- The averaged cell for target position `(x, y)`: accumulate each
channel over the S×S block of the supersampled raster and round the
mean (`count` is the number of visited samples). -/
def cellAt (data : Nat → Nat) (sampleW S x y : Nat) : Cell :=
  ⟨roundDiv ((blockIdxs sampleW S x y).foldl (fun acc k => acc + data k) 0)
      (blockIdxs sampleW S x y).length,
   roundDiv ((blockIdxs sampleW S x y).foldl (fun acc k => acc + data (k + 1)) 0)
      (blockIdxs sampleW S x y).length,
   roundDiv ((blockIdxs sampleW S x y).foldl (fun acc k => acc + data (k + 2)) 0)
      (blockIdxs sampleW S x y).length,
   roundDiv ((blockIdxs sampleW S x y).foldl (fun acc k => acc + data (k + 3)) 0)
      (blockIdxs sampleW S x y).length⟩

/-- The `pixelColors` array built by the row-major `y`/`x` loops of
`convertToPixel`. -/
def pixelColors (data : Nat → Nat) (W H sampleW S : Nat) : List Cell :=
  (List.range H).flatMap (fun y => (List.range W).map (fun x => cellAt data sampleW S x y))

/-- The `flatPixels` buffer handed to `medianCutQuantize`. -/
def flattenCells (cells : List Cell) : List Nat :=
  cells.flatMap (fun c => [c.r, c.g, c.b, c.a])

/-- The palette computed by `convertToPixel`: `medianCutQuantize` on
the flattened cells when `24 <= colorCount <= 256`, else `null`. -/
def convertPalette (cells : List Cell) (colorCount : Int) : Option (List Color) :=
  if 24 ≤ colorCount ∧ colorCount ≤ 256 then medianCutQuantize (flattenCells cells) colorCount
  else none

/-- The final colour the rendering loop paints for one cell: the
nearest palette entry with the cell's own alpha when a palette exists,
the raw averaged cell otherwise.  `none` models the JS crash that
would follow from an empty palette array (unreachable from
`medianCutQuantize`). -/
def finalCellColor (palette : Option (List Color)) (c : Cell) : Option Cell :=
  match palette with
  | none => some c
  | some p => (findClosestColor c.r c.g c.b p).map (fun cc => ⟨cc.r, cc.g, cc.b, c.a⟩)

/-- Proof-side helper: the element the strict-less minimum loop keeps,
given a current best and the remaining palette. -/
def pickMin (d : Color → Int) : Color → List Color → Color
  | best, [] => best
  | best, c :: cs => if d c < d best then pickMin d c cs else pickMin d best cs

/-- A 40×40 uniformly red supersampled raster (RGBA 255,0,0,255),
the intermediate raster a browser produces for a uniformly red
source image. -/
def uniformRedData : Nat → Nat :=
  fun i => if i % 4 = 0 then 255 else if i % 4 = 3 then 255 else 0

/-- 32 opaque pixels with distinct red components `0..31`. -/
def pix32 : List Nat := (List.range 32).flatMap (fun i => [i, 0, 0, 255])

/-- A single opaque red pixel. -/
def pixRed : List Nat := [255, 0, 0, 255]

/-- A small concrete bucket whose widest channel is G. -/
def bucket2 : List Color := [⟨1, 2, 3⟩, ⟨0, 5, 1⟩]

/-- A constant raster with every byte equal to 200. -/
def constData : Nat → Nat := fun _ => 200

/-! ### Basic facts about the bucket recursion -/

theorem splitBucket_nil : ∀ d, splitBucket [] d = [[]]
  | 0 => rfl
  | _ + 1 => by simp [splitBucket]

theorem sortBucket_perm (bucket : List Color) : (sortBucket bucket).Perm bucket :=
  List.perm_insertionSort _ bucket

theorem sortBucket_length (bucket : List Color) :
    (sortBucket bucket).length = bucket.length :=
  (sortBucket_perm bucket).length_eq

theorem splitBucket_length_bounds (d : Nat) :
    ∀ bucket : List Color,
      1 ≤ (splitBucket bucket d).length ∧ (splitBucket bucket d).length ≤ 2 ^ d := by
  induction d with
  | zero => intro bucket; simp [splitBucket]
  | succ d ih =>
    intro bucket
    by_cases h : bucket.length = 0
    · simp only [splitBucket, h, if_pos]
      exact ⟨le_refl 1, Nat.one_le_two_pow⟩
    · simp only [splitBucket, h, if_neg, not_false_iff, List.length_append]
      have h1 := ih ((sortBucket bucket).take (bucket.length / 2))
      have h2 := ih ((sortBucket bucket).drop (bucket.length / 2))
      have hp : 2 ^ (d + 1) = 2 ^ d + 2 ^ d := by ring
      omega

/-- C5 (as stated) is false: a singleton bucket at depth
`ceil(log2 4) = 2` yields 3 leaf buckets, not `2^2 = 4`, because an
empty bucket stops recursing and yields a single leaf. -/
theorem splitBucket_not_always_pow_leaves :
    ¬ (splitBucket [⟨0, 0, 0⟩] (ceilLog2 (4 : Int).toNat)).length =
        2 ^ ceilLog2 (4 : Int).toNat := by
  decide

/-- C5 (amended): for every input colour set and every K ≥ 1, the
recursive bucket splitting terminates at the fixed recursion depth
`ceil(log2 K)` and produces at least 1 and at most `2^depth` leaf
buckets before truncation to the first K buckets. -/
theorem splitBucket_leaf_count_bounds (colors : List Color) (K : Int) (_hK : 1 ≤ K) :
    1 ≤ (splitBucket colors (ceilLog2 K.toNat)).length ∧
      (splitBucket colors (ceilLog2 K.toNat)).length ≤ 2 ^ ceilLog2 K.toNat :=
  splitBucket_length_bounds (ceilLog2 K.toNat) colors

theorem splitBucket_leaf_count_bounds_witness :
    1 ≤ (4 : Int) ∧
      (1 ≤ (splitBucket [⟨5, 6, 7⟩] (ceilLog2 (4 : Int).toNat)).length ∧
        (splitBucket [⟨5, 6, 7⟩] (ceilLog2 (4 : Int).toNat)).length ≤
          2 ^ ceilLog2 (4 : Int).toNat) :=
  ⟨by decide, splitBucket_leaf_count_bounds [⟨5, 6, 7⟩] 4 (by decide)⟩

/-! ### The split step: channel choice, sorting, midpoint -/

instance keyLeTotal (k : Color → Nat) : IsTotal Color (fun u v => k u ≤ k v) :=
  ⟨fun a b => Nat.le_total (k a) (k b)⟩

instance keyLeTrans (k : Color → Nat) : IsTrans Color (fun u v => k u ≤ k v) :=
  ⟨fun _ _ _ hab hbc => Nat.le_trans hab hbc⟩

theorem sortBucket_sorted (bucket : List Color) :
    List.Sorted (fun u v => chVal (selectChannel bucket) u ≤ chVal (selectChannel bucket) v)
      (sortBucket bucket) :=
  List.sorted_insertionSort _ bucket

theorem selectChannel_max :
    ∀ bucket : List Color,
      (∀ ch, ch < 3 → rangeCh bucket ch ≤ rangeCh bucket (selectChannel bucket)) ∧
        ∀ ch, ch < selectChannel bucket → rangeCh bucket ch < rangeCh bucket (selectChannel bucket) := by
  intro bucket
  unfold selectChannel
  split_ifs with h1 h2
  · refine ⟨fun ch hch => ?_, fun ch hch => absurd hch (Nat.not_lt_zero ch)⟩
    interval_cases ch
    · exact le_refl _
    · exact h1.1
    · exact h1.2
  · rw [not_and_or] at h1
    push_neg at h1
    refine ⟨fun ch hch => ?_, fun ch hch => ?_⟩
    · interval_cases ch
      · rcases h1 with h1 | h1 <;> omega
      · exact le_refl _
      · exact h2
    · interval_cases ch
      rcases h1 with h1 | h1 <;> omega
  · rw [not_and_or] at h1
    push_neg at h1
    push_neg at h2
    refine ⟨fun ch hch => ?_, fun ch hch => ?_⟩
    · interval_cases ch
      · rcases h1 with h1 | h1 <;> omega
      · exact h2.le
      · exact le_refl _
    · interval_cases ch
      · rcases h1 with h1 | h1 <;> omega
      · exact h2

/-- C2: on a non-empty bucket, one split step picks the channel of
largest range with the R-over-G-over-B tie-break (every channel with a
smaller index than the chosen one has strictly smaller range), sorts
the bucket ascending by that channel, and recurses on the two halves
`[0, mid)` and `[mid, length)` with `mid = floor(length / 2)`; a
bucket of length 0, or depth 0, yields the bucket itself unchanged. -/
theorem splitBucket_step_spec (b : List Color) (d : Nat) (hb : b ≠ []) :
    splitBucket b 0 = [b] ∧
      splitBucket ([] : List Color) d = [[]] ∧
      selectChannel b < 3 ∧
      (∀ ch, ch < 3 → rangeCh b ch ≤ rangeCh b (selectChannel b)) ∧
      (∀ ch, ch < selectChannel b → rangeCh b ch < rangeCh b (selectChannel b)) ∧
      (sortBucket b).Perm b ∧
      List.Sorted (fun u v => chVal (selectChannel b) u ≤ chVal (selectChannel b) v)
        (sortBucket b) ∧
      splitBucket b (d + 1) =
        splitBucket ((sortBucket b).take (b.length / 2)) d ++
          splitBucket ((sortBucket b).drop (b.length / 2)) d := by
  have hlen : ¬ b.length = 0 := by simpa [List.length_eq_zero] using hb
  have hch3 : selectChannel b < 3 := by
    unfold selectChannel; split_ifs <;> omega
  refine ⟨rfl, splitBucket_nil d, hch3, (selectChannel_max b).1, (selectChannel_max b).2,
    sortBucket_perm b, sortBucket_sorted b, ?_⟩
  simp [splitBucket, hlen]

theorem splitBucket_step_spec_witness :
    (bucket2 ≠ []) ∧
      (splitBucket bucket2 0 = [bucket2] ∧
        splitBucket ([] : List Color) 0 = [[]] ∧
        selectChannel bucket2 < 3 ∧
        (∀ ch, ch < 3 → rangeCh bucket2 ch ≤ rangeCh bucket2 (selectChannel bucket2)) ∧
        (∀ ch, ch < selectChannel bucket2 → rangeCh bucket2 ch < rangeCh bucket2 (selectChannel bucket2)) ∧
        (sortBucket bucket2).Perm bucket2 ∧
        List.Sorted (fun u v => chVal (selectChannel bucket2) u ≤ chVal (selectChannel bucket2) v)
          (sortBucket bucket2) ∧
        splitBucket bucket2 (0 + 1) =
          splitBucket ((sortBucket bucket2).take (bucket2.length / 2)) 0 ++
            splitBucket ((sortBucket bucket2).drop (bucket2.length / 2)) 0) :=
  ⟨by decide, splitBucket_step_spec bucket2 0 (by decide)⟩

/-! ### Graceful degradation and alpha preservation -/

/-- C7: `medianCutQuantize` returns `null` without faulting whenever
`K ≤ 0` or the alpha-filtered colour sequence is empty, and with no
palette the rendered cell colour is the averaged cell, unmodified. -/
theorem quantize_graceful_no_palette :
    (∀ (pixels : List Nat) (K : Int), K ≤ 0 → medianCutQuantize pixels K = none) ∧
      (∀ (pixels : List Nat) (K : Int),
        collectColors pixels = [] → medianCutQuantize pixels K = none) ∧
      ∀ c : Cell, finalCellColor none c = some c := by
  refine ⟨fun pixels K hK => ?_, fun pixels K hc => ?_, fun c => rfl⟩
  · simp [medianCutQuantize, hK]
  · by_cases hK : K ≤ 0
    · simp [medianCutQuantize, hK]
    · simp [medianCutQuantize, hK, hc]

theorem quantize_graceful_no_palette_witness :
    medianCutQuantize [] (-1) = none ∧
      medianCutQuantize [255, 0, 0, 0] 24 = none ∧
      finalCellColor none ⟨1, 2, 3, 4⟩ = some ⟨1, 2, 3, 4⟩ :=
  ⟨quantize_graceful_no_palette.1 [] (-1) (by decide),
    quantize_graceful_no_palette.2.1 [255, 0, 0, 0] 24 (by decide),
    quantize_graceful_no_palette.2.2 ⟨1, 2, 3, 4⟩⟩

/-- C9: the rendered cell keeps the cell's original averaged alpha,
whether or not a palette exists; only r, g, b are replaced, and when a
palette exists they come from the nearest palette entry. -/
theorem rendered_cell_alpha_preserved (palette : Option (List Color)) (c c' : Cell)
    (h : finalCellColor palette c = some c') :
    c'.a = c.a ∧ (palette = none → c' = c) ∧
      ∀ p, palette = some p →
        ∃ cc, findClosestColor c.r c.g c.b p = some cc ∧ c' = ⟨cc.r, cc.g, cc.b, c.a⟩ := by
  cases palette with
  | none =>
    have hc : c = c' := Option.some.inj h
    subst hc
    exact ⟨rfl, fun _ => rfl, fun p hp => by cases hp⟩
  | some p =>
    have h2 : (findClosestColor c.r c.g c.b p).map
        (fun cc => (⟨cc.r, cc.g, cc.b, c.a⟩ : Cell)) = some c' := h
    cases hfc : findClosestColor c.r c.g c.b p with
    | none => rw [hfc] at h2; cases h2
    | some cc =>
      rw [hfc] at h2
      have h3 : (⟨cc.r, cc.g, cc.b, c.a⟩ : Cell) = c' := Option.some.inj h2
      subst h3
      refine ⟨rfl, fun hn => Option.noConfusion hn, fun q hq => ?_⟩
      cases hq
      exact ⟨cc, hfc, rfl⟩

theorem rendered_cell_alpha_preserved_witness :
    finalCellColor (some [⟨9, 9, 9⟩]) ⟨1, 2, 3, 77⟩ = some ⟨9, 9, 9, 77⟩ ∧
      ((⟨9, 9, 9, 77⟩ : Cell).a = (⟨1, 2, 3, 77⟩ : Cell).a ∧
        ((some [⟨9, 9, 9⟩] : Option (List Color)) = none → (⟨9, 9, 9, 77⟩ : Cell) = ⟨1, 2, 3, 77⟩) ∧
        ∀ p, (some [⟨9, 9, 9⟩] : Option (List Color)) = some p →
          ∃ cc, findClosestColor 1 2 3 p = some cc ∧
            (⟨9, 9, 9, 77⟩ : Cell) = ⟨cc.r, cc.g, cc.b, 77⟩) :=
  ⟨by decide, rendered_cell_alpha_preserved (some [⟨9, 9, 9⟩]) ⟨1, 2, 3, 77⟩ ⟨9, 9, 9, 77⟩ (by decide)⟩

/-! ### The nearest-colour loop -/

theorem foldl_closestStep (r g b : Nat) (L : List Color) :
    ∀ best : Color,
      L.foldl (closestStep r g b) (some (distSq r g b best), best) =
        (some (distSq r g b (pickMin (distSq r g b) best L)), pickMin (distSq r g b) best L) := by
  induction L with
  | nil => intro best; rfl
  | cons c cs ih =>
    intro best
    rw [List.foldl_cons]
    by_cases h : distSq r g b c < distSq r g b best
    · have hs : closestStep r g b (some (distSq r g b best), best) c =
          (some (distSq r g b c), c) := by
        simp [closestStep, h]
      rw [hs, ih c]
      simp [pickMin, h]
    · have hs : closestStep r g b (some (distSq r g b best), best) c =
          (some (distSq r g b best), best) := by
        simp [closestStep, h]
      rw [hs, ih best]
      simp [pickMin, h]

theorem findClosestColor_eq_pickMin (r g b : Nat) (p0 : Color) (tl : List Color) :
    findClosestColor r g b (p0 :: tl) = some (pickMin (distSq r g b) p0 tl) := by
  show some (((p0 :: tl).foldl (closestStep r g b) (none, p0)).2) = _
  rw [List.foldl_cons]
  have h0 : closestStep r g b (none, p0) p0 = (some (distSq r g b p0), p0) := rfl
  rw [h0, foldl_closestStep]

theorem pickMin_spec (dd : Color → Int) (L : List Color) :
    ∀ b : Color,
      ∃ l1 l2, b :: L = l1 ++ pickMin dd b L :: l2 ∧
        (∀ x ∈ l1, dd (pickMin dd b L) < dd x) ∧
        dd (pickMin dd b L) ≤ dd b ∧
        ∀ x ∈ L, dd (pickMin dd b L) ≤ dd x := by
  induction L with
  | nil =>
    intro b
    exact ⟨[], [], rfl, by simp, le_refl _, by simp⟩
  | cons c cs ih =>
    intro b
    by_cases h : dd c < dd b
    · have hp : pickMin dd b (c :: cs) = pickMin dd c cs := by simp [pickMin, h]
      obtain ⟨l1, l2, hdec, hl1, hle, hall⟩ := ih c
      rw [hp]
      refine ⟨b :: l1, l2, ?_, ?_, ?_, ?_⟩
      · rw [List.cons_append, ← hdec]
      · intro x hx
        rcases List.mem_cons.mp hx with hx | hx
        · subst hx; exact lt_of_le_of_lt hle h
        · exact hl1 x hx
      · exact le_of_lt (lt_of_le_of_lt hle h)
      · intro x hx
        rcases List.mem_cons.mp hx with hx | hx
        · subst hx; exact hle
        · exact hall x hx
    · have hp : pickMin dd b (c :: cs) = pickMin dd b cs := by simp [pickMin, h]
      obtain ⟨l1, l2, hdec, hl1, hle, hall⟩ := ih b
      rw [hp]
      cases l1 with
      | nil =>
        simp only [List.nil_append] at hdec
        have h1 : b = pickMin dd b cs := by
          have := congrArg (fun l => List.head? l) hdec
          simpa using this
        refine ⟨[], c :: cs, ?_, by simp, ?_, ?_⟩
        · rw [← h1]; rfl
        · rw [← h1]
        · intro x hx
          rcases List.mem_cons.mp hx with hx | hx
          · subst hx; rw [← h1]; exact le_of_not_lt h
          · exact hall x hx
      | cons hd t1 =>
        have h1 : b = hd := by
          have := congrArg (fun l => List.head? l) hdec
          simpa using this
        have h2 : cs = t1 ++ pickMin dd b cs :: l2 := by
          have := congrArg List.tail hdec
          simpa using this
        have hrb : dd (pickMin dd b cs) < dd b := by
          have := hl1 hd (List.mem_cons_self hd t1)
          rw [← h1] at this
          exact this
        refine ⟨b :: c :: t1, l2, ?_, ?_, hle, ?_⟩
        · rw [List.cons_append, List.cons_append, ← h2]
        · intro x hx
          rcases List.mem_cons.mp hx with hx | hx
          · subst hx; exact hrb
          rcases List.mem_cons.mp hx with hx | hx
          · subst hx; exact lt_of_lt_of_le hrb (le_of_not_lt h)
          · exact hl1 x (List.mem_cons_of_mem hd hx)
        · intro x hx
          rcases List.mem_cons.mp hx with hx | hx
          · subst hx; exact le_of_lt (lt_of_lt_of_le hrb (le_of_not_lt h))
          · exact hall x hx

/-- C6: on a non-empty palette, `findClosestColor` returns an element
of the palette, namely the earliest entry achieving the minimum
squared Euclidean RGB distance (every strictly earlier entry has
strictly larger distance, so equal distances never replace the
running minimum). -/
theorem findClosest_earliest_argmin (r g b : Nat) (P : List Color) (hP : P ≠ []) :
    ∃ c l1 l2, findClosestColor r g b P = some c ∧ c ∈ P ∧ P = l1 ++ c :: l2 ∧
      (∀ x ∈ l1, distSq r g b c < distSq r g b x) ∧
      ∀ x ∈ P, distSq r g b c ≤ distSq r g b x := by
  cases P with
  | nil => exact absurd rfl hP
  | cons p0 tl =>
    obtain ⟨l1, l2, hdec, hl1, hle, hall⟩ := pickMin_spec (distSq r g b) tl p0
    refine ⟨pickMin (distSq r g b) p0 tl, l1, l2,
      findClosestColor_eq_pickMin r g b p0 tl, ?_, hdec, hl1, ?_⟩
    · rw [hdec]
      exact List.mem_append_right _ (List.mem_cons_self _ _)
    · intro x hx
      rcases List.mem_cons.mp hx with hx | hx
      · subst hx; exact hle
      · exact hall x hx

theorem findClosest_earliest_argmin_witness :
    findClosestColor 0 0 0 [⟨3, 0, 0⟩, ⟨1, 0, 0⟩, ⟨1, 0, 0⟩] = some ⟨1, 0, 0⟩ ∧
      ([⟨3, 0, 0⟩, ⟨1, 0, 0⟩, ⟨1, 0, 0⟩] : List Color) ≠ [] ∧
      ∃ c l1 l2,
        findClosestColor 0 0 0 [⟨3, 0, 0⟩, ⟨1, 0, 0⟩, ⟨1, 0, 0⟩] = some c ∧
          c ∈ [⟨3, 0, 0⟩, ⟨1, 0, 0⟩, ⟨1, 0, 0⟩] ∧
          ([⟨3, 0, 0⟩, ⟨1, 0, 0⟩, ⟨1, 0, 0⟩] : List Color) = l1 ++ c :: l2 ∧
          (∀ x ∈ l1, distSq 0 0 0 c < distSq 0 0 0 x) ∧
          ∀ x ∈ ([⟨3, 0, 0⟩, ⟨1, 0, 0⟩, ⟨1, 0, 0⟩] : List Color),
            distSq 0 0 0 c ≤ distSq 0 0 0 x :=
  ⟨by decide, by decide, findClosest_earliest_argmin 0 0 0 _ (by decide)⟩

/-! ### Palette size bounds -/

theorem clog2Aux_lt : ∀ fuel n, 1 ≤ n → n ≤ fuel → clog2Aux fuel n < n := by
  intro fuel
  induction fuel with
  | zero => intro n h1 h2; omega
  | succ fuel ih =>
    intro n h1 h2
    by_cases hn : n ≤ 1
    · simp only [clog2Aux, hn, if_pos]
      omega
    · have hrec : clog2Aux (fuel + 1) n = clog2Aux fuel ((n + 1) / 2) + 1 := by
        simp [clog2Aux, hn]
      have hm := ih ((n + 1) / 2) (by omega) (by omega)
      omega

theorem ceilLog2_lt_self (n : Nat) (h : 1 ≤ n) : ceilLog2 n < n :=
  clog2Aux_lt n n h (le_refl n)

/-- A non-empty bucket always leaves at least one non-empty leaf among
the first `depth + 1` leaves of the recursion: empty buckets can only
accumulate at the front one per level. -/
theorem splitBucket_exists_nonempty_leaf (d : Nat) :
    ∀ b : List Color, b ≠ [] →
      ∃ i L, i ≤ d ∧ (splitBucket b d)[i]? = some L ∧ L ≠ [] := by
  induction d with
  | zero =>
    intro b hb
    exact ⟨0, b, le_refl 0, rfl, hb⟩
  | succ d ih =>
    intro b hb
    have hlen : ¬ b.length = 0 := by simpa [List.length_eq_zero] using hb
    have heq : splitBucket b (d + 1) =
        splitBucket ((sortBucket b).take (b.length / 2)) d ++
          splitBucket ((sortBucket b).drop (b.length / 2)) d := by
      simp [splitBucket, hlen]
    by_cases hmid : b.length / 2 = 0
    · have h1 : (sortBucket b).take (b.length / 2) = [] := by
        rw [hmid]; exact List.take_zero _
      have h2 : (sortBucket b).drop (b.length / 2) = sortBucket b := by
        rw [hmid]; exact List.drop_zero _
      have hsb : sortBucket b ≠ [] := by
        intro hcon
        have hl := congrArg List.length hcon
        rw [sortBucket_length] at hl
        simp at hl
        exact hb hl
      obtain ⟨i, L, hi, hget, hL⟩ := ih (sortBucket b) hsb
      refine ⟨1 + i, L, by omega, ?_, hL⟩
      rw [heq, h1, h2, splitBucket_nil]
      rw [List.getElem?_append_right (by simp)]
      simpa using hget
    · have htake : (sortBucket b).take (b.length / 2) ≠ [] := by
        intro hcon
        have hl := congrArg List.length hcon
        rw [List.length_take, sortBucket_length] at hl
        simp only [List.length_nil] at hl
        omega
      obtain ⟨i, L, hi, hget, hL⟩ := ih _ htake
      refine ⟨i, L, by omega, ?_, hL⟩
      rw [heq]
      have hlt : i < (splitBucket ((sortBucket b).take (b.length / 2)) d).length :=
        (List.getElem?_eq_some_iff.mp hget).1
      rw [List.getElem?_append_left hlt]
      exact hget

/-- C1: for K ≥ 1 and at least one pixel passing the alpha filter,
`medianCutQuantize` returns a palette with between 1 and K entries. -/
theorem quantize_palette_length_bounds (pixels : List Nat) (K : Int) (hK : 1 ≤ K)
    (hc : collectColors pixels ≠ []) :
    ∃ p, medianCutQuantize pixels K = some p ∧ 1 ≤ p.length ∧ (p.length : Int) ≤ K := by
  have hK0 : ¬ K ≤ 0 := by omega
  have hlen : ¬ (collectColors pixels).length = 0 := by
    simpa [List.length_eq_zero] using hc
  have hq : medianCutQuantize pixels K =
      some (((((splitBucket (collectColors pixels) (ceilLog2 K.toNat))).take K.toNat).filter
        (fun bk => decide (0 < bk.length))).map bucketMean) := by
    simp [medianCutQuantize, hK0, hlen]
  refine ⟨_, hq, ?_, ?_⟩
  · obtain ⟨i, L, hi, hget, hL⟩ :=
      splitBucket_exists_nonempty_leaf (ceilLog2 K.toNat) (collectColors pixels) hc
    have hKn : 1 ≤ K.toNat := by omega
    have hiK : i < K.toNat := by
      have hd := ceilLog2_lt_self K.toNat hKn
      omega
    have hget' :
        ((splitBucket (collectColors pixels) (ceilLog2 K.toNat)).take K.toNat)[i]? = some L :=
      (List.getElem?_take_of_lt hiK).trans hget
    have hmem : L ∈ (splitBucket (collectColors pixels) (ceilLog2 K.toNat)).take K.toNat :=
      List.getElem?_mem hget'
    have hfil : L ∈ ((splitBucket (collectColors pixels) (ceilLog2 K.toNat)).take K.toNat).filter
        (fun bk => decide (0 < bk.length)) := by
      rw [List.mem_filter]
      exact ⟨hmem, by simpa using List.length_pos.mpr hL⟩
    have hpos := List.length_pos.mpr (List.ne_nil_of_mem hfil)
    simpa [List.length_map] using hpos
  · have h1 : ((((splitBucket (collectColors pixels) (ceilLog2 K.toNat)).take K.toNat).filter
        (fun bk => decide (0 < bk.length))).map bucketMean).length ≤ K.toNat := by
      rw [List.length_map]
      refine le_trans (List.length_filter_le _ _) ?_
      rw [List.length_take]
      exact min_le_left _ _
    have hKnn : 0 ≤ K := by omega
    calc ((((((splitBucket (collectColors pixels) (ceilLog2 K.toNat))).take K.toNat).filter
          (fun bk => decide (0 < bk.length))).map bucketMean).length : Int)
        ≤ (K.toNat : Int) := by exact_mod_cast h1
      _ = K := Int.toNat_of_nonneg hKnn

theorem quantize_palette_length_bounds_witness :
    1 ≤ (24 : Int) ∧ collectColors pixRed ≠ [] ∧
      ∃ p, medianCutQuantize pixRed 24 = some p ∧ 1 ≤ p.length ∧ (p.length : Int) ≤ 24 :=
  ⟨by decide, by decide, quantize_palette_length_bounds pixRed 24 (by decide) (by decide)⟩

/-! ### Monotonicity of the palette length in K -/

set_option maxRecDepth 100000 in
/-- C3 (as stated) is false: on 32 distinct opaque colours the palette
has 32 entries at K = 32 but only 16 at K = 33, both within [24,256]
and below/at the number of distinct input colours.  The depth jump
from 5 to 6 interleaves empty leaves in front of non-empty ones, and
truncation to the first K buckets then discards colour-carrying
buckets. -/
theorem quantize_length_not_monotone :
    (medianCutQuantize pix32 32).map List.length = some 32 ∧
      (medianCutQuantize pix32 33).map List.length = some 16 ∧
      (collectColors pix32).dedup.length = 32 ∧
      ¬ (32 : Nat) ≤ 16 :=
  ⟨by decide, by decide, by decide, by decide⟩

/-- C3 (amended): for a fixed input, the palette length is
non-decreasing as K increases within [24,256] as long as the recursion
depth `ceil(log2 K)` does not change; across a depth increase it can
decrease. -/
theorem quantize_length_monotone_same_depth (pixels : List Nat) (K K' : Int)
    (hK : 24 ≤ K) (hKK : K ≤ K') (hK' : K' ≤ 256)
    (hdepth : ceilLog2 K.toNat = ceilLog2 K'.toNat) (p p' : List Color)
    (hp : medianCutQuantize pixels K = some p)
    (hp' : medianCutQuantize pixels K' = some p') :
    p.length ≤ p'.length := by
  have hK0 : ¬ K ≤ 0 := by omega
  have hK'0 : ¬ K' ≤ 0 := by omega
  by_cases hlen : (collectColors pixels).length = 0
  · simp [medianCutQuantize, hK0, hlen] at hp
  · have hp2 : (((splitBucket (collectColors pixels) (ceilLog2 K.toNat)).take K.toNat).filter
        (fun bk => decide (0 < bk.length))).map bucketMean = p := by
      have h := hp
      simp [medianCutQuantize, hK0, hlen] at h
      exact h
    have hp2' : (((splitBucket (collectColors pixels) (ceilLog2 K'.toNat)).take K'.toNat).filter
        (fun bk => decide (0 < bk.length))).map bucketMean = p' := by
      have h := hp'
      simp [medianCutQuantize, hK'0, hlen] at h
      exact h
    rw [← hp2, ← hp2', ← hdepth, List.length_map, List.length_map]
    have hKK' : K.toNat ≤ K'.toNat := by omega
    have hsplit : (splitBucket (collectColors pixels) (ceilLog2 K.toNat)).take K'.toNat =
        (splitBucket (collectColors pixels) (ceilLog2 K.toNat)).take K.toNat ++
          ((splitBucket (collectColors pixels) (ceilLog2 K.toNat)).drop K.toNat).take
            (K'.toNat - K.toNat) := by
      rw [← List.take_add]
      congr 1
      omega
    rw [hsplit, List.filter_append, List.length_append]
    exact Nat.le_add_right _ _

theorem quantize_length_monotone_same_depth_witness :
    24 ≤ (24 : Int) ∧ (24 : Int) ≤ 25 ∧ (25 : Int) ≤ 256 ∧
      ceilLog2 (24 : Int).toNat = ceilLog2 (25 : Int).toNat ∧
      medianCutQuantize pixRed 24 = some [⟨255, 0, 0⟩] ∧
      medianCutQuantize pixRed 25 = some [⟨255, 0, 0⟩] ∧
      ([⟨255, 0, 0⟩] : List Color).length ≤ ([⟨255, 0, 0⟩] : List Color).length :=
  ⟨by decide, by decide, by decide, by decide, by decide, by decide,
    quantize_length_monotone_same_depth pixRed 24 25 (by decide) (by decide) (by decide)
      (by decide) [⟨255, 0, 0⟩] [⟨255, 0, 0⟩] (by decide) (by decide)⟩

/-! ### Scenario A: uniform red source -/

set_option maxRecDepth 400000 in
set_option maxHeartbeats 2000000 in
/-- C4 (as stated) is false: for the uniformly red 10×10 grid derived
from a uniformly red source with K = 24, the palette has 24 entries,
not exactly 1 — the quantizer never deduplicates identical colours, so
all 24 surviving buckets of identical reds survive averaging. -/
theorem scenarioA_palette_not_singleton :
    ¬ (convertPalette (pixelColors uniformRedData 10 10 40 4) 24).map List.length = some 1 := by
  decide

set_option maxRecDepth 400000 in
set_option maxHeartbeats 2000000 in
/-- C4 (amended): on a uniformly red supersampled raster every one of
the 100 cells averages to (255,0,0,255); the palette has exactly 24
entries, each equal to (255,0,0); and every cell is mapped to such an
entry, rendering as (255,0,0) with alpha 255. -/
theorem scenarioA_uniform_red :
    pixelColors uniformRedData 10 10 40 4 = List.replicate 100 ⟨255, 0, 0, 255⟩ ∧
      convertPalette (List.replicate 100 (⟨255, 0, 0, 255⟩ : Cell)) 24 =
        some (List.replicate 24 ⟨255, 0, 0⟩) ∧
      ∀ c ∈ List.replicate 100 (⟨255, 0, 0, 255⟩ : Cell),
        finalCellColor (some (List.replicate 24 (⟨255, 0, 0⟩ : Color))) c =
          some ⟨255, 0, 0, 255⟩ :=
  ⟨by decide, by decide, by decide⟩

/-! ### Palette components stay in the 8-bit range -/

theorem foldl_add_map {α : Type} (f : α → Nat) :
    ∀ (l : List α) (a : Nat), l.foldl (fun s x => s + f x) a = a + (l.map f).sum := by
  intro l
  induction l with
  | nil => intro a; simp
  | cons x xs ih =>
    intro a
    simp only [List.foldl_cons, List.map_cons, List.sum_cons, ih (a + f x)]
    omega

theorem sum_map_le {α : Type} (f : α → Nat) (l : List α) (m : Nat)
    (h : ∀ x ∈ l, f x ≤ m) : (l.map f).sum ≤ m * l.length := by
  induction l with
  | nil => simp
  | cons x xs ih =>
    simp only [List.map_cons, List.sum_cons, List.length_cons]
    have h1 := h x (List.mem_cons_self x xs)
    have h2 := ih (fun y hy => h y (List.mem_cons_of_mem x hy))
    have h3 : m * (xs.length + 1) = m * xs.length + m := by ring
    omega

theorem roundDiv_le (a n m : Nat) (hn : 0 < n) (ha : a ≤ m * n) : roundDiv a n ≤ m := by
  unfold roundDiv
  have h2n : 0 < 2 * n := by omega
  have key : 2 * a + n < (m + 1) * (2 * n) := by
    have hh : (m + 1) * (2 * n) = 2 * (m * n) + 2 * n := by ring
    omega
  have := (Nat.div_lt_iff_lt_mul h2n).mpr key
  omega

theorem mem_splitBucket_mem (d : Nat) :
    ∀ (b L : List Color), L ∈ splitBucket b d → ∀ c ∈ L, c ∈ b := by
  induction d with
  | zero =>
    intro b L hL c hc
    simp only [splitBucket, List.mem_singleton] at hL
    subst hL
    exact hc
  | succ d ih =>
    intro b L hL c hc
    by_cases hlen : b.length = 0
    · simp only [splitBucket, hlen, if_pos, List.mem_singleton] at hL
      subst hL
      exact hc
    · simp only [splitBucket, hlen, if_neg, not_false_iff, List.mem_append] at hL
      have hsub : c ∈ sortBucket b → c ∈ b := fun hcs => (sortBucket_perm b).subset hcs
      rcases hL with h | h
      · exact hsub (List.take_subset _ _ (ih _ L h c hc))
      · exact hsub (List.drop_subset _ _ (ih _ L h c hc))

theorem collectColors_le (pixels : List Nat) (hp : ∀ v ∈ pixels, v ≤ 255) :
    ∀ c ∈ collectColors pixels, c.r ≤ 255 ∧ c.g ≤ 255 ∧ c.b ≤ 255 := by
  induction pixels using collectColors.induct with
  | case1 r g b a rest ha ih =>
    intro c hc
    rw [collectColors, if_pos ha] at hc
    rcases List.mem_cons.mp hc with hc | hc
    · subst hc
      refine ⟨hp r ?_, hp g ?_, hp b ?_⟩ <;> simp
    · exact ih (fun v hv => hp v (by simp [hv])) c hc
  | case2 r g b a rest ha ih =>
    intro c hc
    rw [collectColors, if_neg ha] at hc
    exact ih (fun v hv => hp v (by simp [hv])) c hc
  | case3 pixels hshape =>
    intro c hc
    rw [collectColors] at hc
    simp at hc
    exact hshape

/-- C10: every entry of a palette returned by `medianCutQuantize` on
an 8-bit buffer has all three components within [0,255] (each entry is
the rounded componentwise mean of a non-empty bucket of buffer
colours; components are naturals, hence ≥ 0). -/
theorem quantize_palette_components_in_range (pixels : List Nat) (K : Int) (p : List Color)
    (hp : ∀ v ∈ pixels, v ≤ 255) (hq : medianCutQuantize pixels K = some p) :
    ∀ c ∈ p, c.r ≤ 255 ∧ c.g ≤ 255 ∧ c.b ≤ 255 := by
  by_cases hK0 : K ≤ 0
  · rw [medianCutQuantize, if_pos hK0] at hq
    cases hq
  by_cases hlen : (collectColors pixels).length = 0
  · simp [medianCutQuantize, hK0, hlen] at hq
  have hq2 : (((splitBucket (collectColors pixels) (ceilLog2 K.toNat)).take K.toNat).filter
      (fun bk => decide (0 < bk.length))).map bucketMean = p := by
    have h := hq
    simp [medianCutQuantize, hK0, hlen] at h
    exact h
  intro c hc
  rw [← hq2] at hc
  obtain ⟨bk, hbk, hmean⟩ := List.mem_map.mp hc
  have hbk2 := List.mem_filter.mp hbk
  have hbkmem : bk ∈ splitBucket (collectColors pixels) (ceilLog2 K.toNat) :=
    List.take_subset _ _ hbk2.1
  have hpos : 0 < bk.length := by simpa using hbk2.2
  have hcomp : ∀ cc ∈ bk, cc.r ≤ 255 ∧ cc.g ≤ 255 ∧ cc.b ≤ 255 := fun cc hcc =>
    collectColors_le pixels hp cc (mem_splitBucket_mem _ _ _ hbkmem cc hcc)
  rw [← hmean]
  refine ⟨?_, ?_, ?_⟩
  · show roundDiv (bk.foldl (fun s c => s + c.r) 0) bk.length ≤ 255
    rw [foldl_add_map, Nat.zero_add]
    exact roundDiv_le _ _ 255 hpos (sum_map_le Color.r bk 255 (fun x hx => (hcomp x hx).1))
  · show roundDiv (bk.foldl (fun s c => s + c.g) 0) bk.length ≤ 255
    rw [foldl_add_map, Nat.zero_add]
    exact roundDiv_le _ _ 255 hpos (sum_map_le Color.g bk 255 (fun x hx => (hcomp x hx).2.1))
  · show roundDiv (bk.foldl (fun s c => s + c.b) 0) bk.length ≤ 255
    rw [foldl_add_map, Nat.zero_add]
    exact roundDiv_le _ _ 255 hpos (sum_map_le Color.b bk 255 (fun x hx => (hcomp x hx).2.2))

theorem quantize_palette_components_in_range_witness :
    (∀ v ∈ pixRed, v ≤ 255) ∧ medianCutQuantize pixRed 24 = some [⟨255, 0, 0⟩] ∧
      ∀ c ∈ ([⟨255, 0, 0⟩] : List Color), c.r ≤ 255 ∧ c.g ≤ 255 ∧ c.b ≤ 255 :=
  ⟨by decide, by decide,
    quantize_palette_components_in_range pixRed 24 [⟨255, 0, 0⟩] (by decide) (by decide)⟩

/-! ### The downsampler: block means, bounds, row-major order -/

theorem sum_map_range (f : Nat → Nat) :
    ∀ n, ((List.range n).map f).sum = ∑ i ∈ Finset.range n, f i := by
  intro n
  induction n with
  | zero => simp
  | succ n ih =>
    rw [List.range_succ, List.map_append, List.sum_append, Finset.sum_range_succ, ih]
    simp

theorem sum_map_flatMap {α β : Type} (f : β → Nat) (g : α → List β) :
    ∀ l : List α, ((l.flatMap g).map f).sum = (l.map (fun a => ((g a).map f).sum)).sum := by
  intro l
  induction l with
  | nil => simp
  | cons a as ih =>
    simp only [List.flatMap_cons, List.map_append, List.sum_append, ih, List.map_cons,
      List.sum_cons]

theorem blockIdxs_sum (f : Nat → Nat) (sampleW S x y : Nat) :
    ((blockIdxs sampleW S x y).map f).sum =
      ∑ j ∈ Finset.range S, ∑ i ∈ Finset.range S,
        f (((y * S + j) * sampleW + (x * S + i)) * 4) := by
  unfold blockIdxs
  rw [sum_map_flatMap, sum_map_range]
  refine Finset.sum_congr rfl (fun j _ => ?_)
  rw [List.map_map, sum_map_range]
  rfl

theorem length_flatMap_const {α β : Type} (g : α → List β) (m : Nat)
    (h : ∀ a, (g a).length = m) : ∀ l : List α, (l.flatMap g).length = l.length * m := by
  intro l
  induction l with
  | nil => simp
  | cons a as ih =>
    rw [List.flatMap_cons, List.length_append, h a, ih, List.length_cons]
    ring

theorem blockIdxs_length (sampleW S x y : Nat) :
    (blockIdxs sampleW S x y).length = S * S := by
  unfold blockIdxs
  rw [length_flatMap_const _ S (fun a => by rw [List.length_map, List.length_range]),
    List.length_range]

theorem pixelColors_length (data : Nat → Nat) (W H sampleW S : Nat) :
    (pixelColors data W H sampleW S).length = H * W := by
  unfold pixelColors
  induction H with
  | zero => simp
  | succ H ih =>
    rw [List.range_succ, List.flatMap_append, List.length_append, ih]
    simp only [List.flatMap_cons, List.flatMap_nil, List.append_nil, List.length_map,
      List.length_range]
    ring

theorem pixelColors_get (data : Nat → Nat) (W H sampleW S x y : Nat)
    (hx : x < W) (hy : y < H) :
    (pixelColors data W H sampleW S)[y * W + x]? = some (cellAt data sampleW S x y) := by
  revert hy
  induction H with
  | zero => intro hy; omega
  | succ H ih =>
    intro hy
    show ((List.range (H + 1)).flatMap
      (fun y => (List.range W).map (fun x => cellAt data sampleW S x y)))[y * W + x]? = _
    rw [List.range_succ, List.flatMap_append]
    by_cases hyH : y < H
    · have hlen : ((List.range H).flatMap
          (fun y => (List.range W).map (fun x => cellAt data sampleW S x y))).length = H * W :=
        pixelColors_length data W H sampleW S
      have hidx : y * W + x < ((List.range H).flatMap
          (fun y => (List.range W).map (fun x => cellAt data sampleW S x y))).length := by
        rw [hlen]
        have h1 : (y + 1) * W ≤ H * W := Nat.mul_le_mul_right W hyH
        have h2 : (y + 1) * W = y * W + W := by ring
        omega
      rw [List.getElem?_append_left hidx]
      exact ih hyH
    · have hyH' : y = H := by omega
      subst hyH'
      have hlen : ((List.range y).flatMap
          (fun y => (List.range W).map (fun x => cellAt data sampleW S x y))).length = y * W :=
        pixelColors_length data W y sampleW S
      rw [List.getElem?_append_right (by rw [hlen]; omega)]
      rw [hlen]
      simp only [List.flatMap_cons, List.flatMap_nil, List.append_nil]
      have hsub : y * W + x - y * W = x := by omega
      rw [hsub, List.getElem?_map, List.getElem?_range hx]
      rfl

theorem cellAt_eq (data : Nat → Nat) (sampleW S x y : Nat) :
    cellAt data sampleW S x y =
      ⟨roundDiv (∑ j ∈ Finset.range S, ∑ i ∈ Finset.range S,
          data (((y * S + j) * sampleW + (x * S + i)) * 4)) (S * S),
        roundDiv (∑ j ∈ Finset.range S, ∑ i ∈ Finset.range S,
          data (((y * S + j) * sampleW + (x * S + i)) * 4 + 1)) (S * S),
        roundDiv (∑ j ∈ Finset.range S, ∑ i ∈ Finset.range S,
          data (((y * S + j) * sampleW + (x * S + i)) * 4 + 2)) (S * S),
        roundDiv (∑ j ∈ Finset.range S, ∑ i ∈ Finset.range S,
          data (((y * S + j) * sampleW + (x * S + i)) * 4 + 3)) (S * S)⟩ := by
  simp only [cellAt, foldl_add_map, Nat.zero_add, blockIdxs_sum, blockIdxs_length]

theorem cellAt_le (data : Nat → Nat) (sampleW S x y : Nat) (hS : 0 < S)
    (hdata : ∀ i, data i ≤ 255) :
    (cellAt data sampleW S x y).r ≤ 255 ∧ (cellAt data sampleW S x y).g ≤ 255 ∧
      (cellAt data sampleW S x y).b ≤ 255 ∧ (cellAt data sampleW S x y).a ≤ 255 := by
  have hlen : 0 < (blockIdxs sampleW S x y).length := by
    rw [blockIdxs_length]
    exact Nat.mul_pos hS hS
  simp only [cellAt]
  refine ⟨?_, ?_, ?_, ?_⟩ <;>
    (rw [foldl_add_map, Nat.zero_add]
     exact roundDiv_le _ _ 255 hlen (sum_map_le _ _ 255 (fun k _ => hdata _)))

/-- C8: the downsampling loops produce pixelWidth·pixelHeight cells in
row-major order (cell (x,y) sits at index y·W + x); each of the four
channels of a cell is, independently, the rounded mean of that channel
over the S×S block of the supersampled raster at (x·S.., y·S..); and
when the raster is 8-bit every component lies within [0,255]. -/
theorem downsample_rowmajor_block_mean (data : Nat → Nat) (W H sampleW S x y : Nat)
    (hx : x < W) (hy : y < H) (hS : 0 < S) (hdata : ∀ i, data i ≤ 255) :
    (pixelColors data W H sampleW S).length = H * W ∧
      ∃ c, (pixelColors data W H sampleW S)[y * W + x]? = some c ∧
        c.r = roundDiv (∑ j ∈ Finset.range S, ∑ i ∈ Finset.range S,
          data (((y * S + j) * sampleW + (x * S + i)) * 4)) (S * S) ∧
        c.g = roundDiv (∑ j ∈ Finset.range S, ∑ i ∈ Finset.range S,
          data (((y * S + j) * sampleW + (x * S + i)) * 4 + 1)) (S * S) ∧
        c.b = roundDiv (∑ j ∈ Finset.range S, ∑ i ∈ Finset.range S,
          data (((y * S + j) * sampleW + (x * S + i)) * 4 + 2)) (S * S) ∧
        c.a = roundDiv (∑ j ∈ Finset.range S, ∑ i ∈ Finset.range S,
          data (((y * S + j) * sampleW + (x * S + i)) * 4 + 3)) (S * S) ∧
        c.r ≤ 255 ∧ c.g ≤ 255 ∧ c.b ≤ 255 ∧ c.a ≤ 255 := by
  obtain ⟨h1, h2, h3, h4⟩ := cellAt_le data sampleW S x y hS hdata
  refine ⟨pixelColors_length data W H sampleW S,
    cellAt data sampleW S x y, pixelColors_get data W H sampleW S x y hx hy,
    ?_, ?_, ?_, ?_, h1, h2, h3, h4⟩ <;> rw [cellAt_eq]

theorem downsample_rowmajor_block_mean_witness :
    (1 < 2) ∧ (1 < 2) ∧ (0 < 1) ∧ (∀ i, constData i ≤ 255) ∧
      ((pixelColors constData 2 2 8 1).length = 2 * 2 ∧
        ∃ c, (pixelColors constData 2 2 8 1)[1 * 2 + 1]? = some c ∧
          c.r = roundDiv (∑ j ∈ Finset.range 1, ∑ i ∈ Finset.range 1,
            constData (((1 * 1 + j) * 8 + (1 * 1 + i)) * 4)) (1 * 1) ∧
          c.g = roundDiv (∑ j ∈ Finset.range 1, ∑ i ∈ Finset.range 1,
            constData (((1 * 1 + j) * 8 + (1 * 1 + i)) * 4 + 1)) (1 * 1) ∧
          c.b = roundDiv (∑ j ∈ Finset.range 1, ∑ i ∈ Finset.range 1,
            constData (((1 * 1 + j) * 8 + (1 * 1 + i)) * 4 + 2)) (1 * 1) ∧
          c.a = roundDiv (∑ j ∈ Finset.range 1, ∑ i ∈ Finset.range 1,
            constData (((1 * 1 + j) * 8 + (1 * 1 + i)) * 4 + 3)) (1 * 1) ∧
          c.r ≤ 255 ∧ c.g ≤ 255 ∧ c.b ≤ 255 ∧ c.a ≤ 255) :=
  ⟨by decide, by decide, by decide, fun i => by show (200 : Nat) ≤ 255; decide,
    downsample_rowmajor_block_mean constData 2 2 8 1 1 1 (by decide) (by decide) (by decide)
      (fun i => by show (200 : Nat) ≤ 255; decide)⟩

end PinDou
